import Mathlib

/-!
Verification development for the fbscraper crawl / classify / download
pipeline.  The Python modules `fbscraper/dumper.py`, `fbscraper/parser.py`
and `fbscraper/lib.py` are shallowly embedded below: dictionaries become
association lists preserving insertion order, exceptions become `Except`,
network sources become explicit functions from request parameters to
response records, and the unbounded `while` loops of the two crawlers
become fuel-indexed iteration.  Theorems then settle the behavioural
claims about pagination, message ordering, attachment classification and
error handling.
-/

namespace FBScraper

/-- Model of a Python `dict` keyed by strings: an association list in
insertion order.  Writing to an existing key overwrites it in place;
writing a fresh key appends it at the end. -/
def dictInsert {α : Type} (d : List (String × α)) (k : String) (v : α) :
    List (String × α) :=
  if d.any (fun p => p.1 == k) then
    d.map (fun p => if p.1 == k then (k, v) else p)
  else d ++ [(k, v)]

/-- Lookup in the association-list dictionary model. -/
def dictGet {α : Type} (d : List (String × α)) (k : String) : Option α :=
  (d.find? (fun p => p.1 == k)).map (fun p => p.2)

/-- Membership test, modelling the Python `in` operator on dicts. -/
def dictMem {α : Type} (d : List (String × α)) (k : String) : Bool :=
  d.any (fun p => p.1 == k)

/-! ## Data model of parser.py -/

/-- One attachment of a Facebook JSON message, with the fields read by
`FBParser`: `attach_type`, `name`, `preview_url`, `url` and the nested
`share.uri`.  Nullable JSON fields become `Option`. -/
structure FBAttachment where
  attach_type : String
  name : String
  preview_url : Option String
  url : Option String
  share_uri : Option String
deriving DecidableEq

/-- One inline link range of a message; `FBParser` reads
`link_range.entity.url`. -/
structure FBRange where
  url : String
deriving DecidableEq

/-- One Facebook JSON message with the fields read by `FBParser`.  The
`ranges` key may be absent from the JSON object, hence `Option`. -/
structure FBMsg where
  action_type : String
  author : String
  body : String
  timestamp : Int
  attachments : List FBAttachment
  ranges : Option (List FBRange)
deriving DecidableEq

/-- The `FBParserMode` enum of lib.py. -/
inductive FBParserMode
  | report
  | dl
deriving DecidableEq

/-- Values of the `FBDataTypes` enum of lib.py that name category
subfolders and report files. -/
def PICTURES : String := "pictures"

/-- Value `FBDataTypes.GIFS.value`. -/
def GIFS : String := "gifs"

/-- Value `FBDataTypes.VIDEOS.value`. -/
def VIDEOS : String := "videos"

/-- Value `FBDataTypes.FILES.value`. -/
def FILES : String := "files"

/-- Mutable per-conversation state of an `FBParser` instance: the six
text streams, the six counters, the participant directory, the
conversation output folder and the list of submitted download requests
`(url, destination path)` in submission order. -/
structure ParserState where
  output_convers : String
  participants : List (String × String)
  msgs : String
  pics : String
  gifs : String
  videos : String
  files : String
  links : String
  cnt_msgs : Nat
  cnt_pics : Nat
  cnt_gifs : Nat
  cnt_videos : Nat
  cnt_files : Nat
  cnt_links : Nat
  downloads : List (String × String)
deriving DecidableEq

/-! ## Attachment classification (parser.py, check_and_get_pics and
friends)

Each Python method loops over `msg.attachments` mutating `self`; the
loop body becomes a step function and the loop a `List.foldl`.  The
`os.sep` path separator is modelled as "/". -/

/-- Loop body of `FBParser.check_and_get_pics`. -/
def picsStep (mode : FBParserMode) (s : ParserState) (a : FBAttachment) :
    ParserState :=
  if a.attach_type == "photo" then
    match a.preview_url with
    | some u =>
      let s1 := if mode == FBParserMode.report || mode == FBParserMode.dl then
          { s with pics := s.pics ++ u ++ "\n" } else s
      let s2 := if mode == FBParserMode.dl then
          { s1 with downloads :=
              s1.downloads ++ [(u, s1.output_convers ++ PICTURES ++ "/" ++ a.name)] }
        else s1
      { s2 with cnt_pics := s2.cnt_pics + 1 }
    | none => s
  else s

/-- Translation of `FBParser.check_and_get_pics`. -/
def check_and_get_pics (mode : FBParserMode) (st : ParserState) (msg : FBMsg) :
    ParserState :=
  msg.attachments.foldl (picsStep mode) st

/-- Loop body of `FBParser.check_and_get_gifs`. -/
def gifsStep (mode : FBParserMode) (s : ParserState) (a : FBAttachment) :
    ParserState :=
  if a.attach_type == "animated_image" then
    match a.preview_url with
    | some u =>
      let s1 := if mode == FBParserMode.report || mode == FBParserMode.dl then
          { s with gifs := s.gifs ++ u ++ "\n" } else s
      let s2 := if mode == FBParserMode.dl then
          { s1 with downloads :=
              s1.downloads ++ [(u, s1.output_convers ++ GIFS ++ "/" ++ a.name)] }
        else s1
      { s2 with cnt_gifs := s2.cnt_gifs + 1 }
    | none => s
  else s

/-- Translation of `FBParser.check_and_get_gifs`. -/
def check_and_get_gifs (mode : FBParserMode) (st : ParserState) (msg : FBMsg) :
    ParserState :=
  msg.attachments.foldl (gifsStep mode) st

/-- Loop body of `FBParser.check_and_get_videos`. -/
def videosStep (mode : FBParserMode) (s : ParserState) (a : FBAttachment) :
    ParserState :=
  if a.attach_type == "video" then
    match a.url with
    | some u =>
      let s1 := if mode == FBParserMode.report || mode == FBParserMode.dl then
          { s with videos := s.videos ++ u ++ "\n" } else s
      let s2 := if mode == FBParserMode.dl then
          { s1 with downloads :=
              s1.downloads ++ [(u, s1.output_convers ++ VIDEOS ++ "/" ++ a.name)] }
        else s1
      { s2 with cnt_videos := s2.cnt_videos + 1 }
    | none => s
  else s

/-- Translation of `FBParser.check_and_get_videos`. -/
def check_and_get_videos (mode : FBParserMode) (st : ParserState) (msg : FBMsg) :
    ParserState :=
  msg.attachments.foldl (videosStep mode) st

/-- Loop body of `FBParser.check_and_get_files`. -/
def filesStep (mode : FBParserMode) (s : ParserState) (a : FBAttachment) :
    ParserState :=
  if a.attach_type == "file" then
    match a.url with
    | some u =>
      let s1 := if mode == FBParserMode.report || mode == FBParserMode.dl then
          { s with files := s.files ++ u ++ "\n" } else s
      let s2 := if mode == FBParserMode.dl then
          { s1 with downloads :=
              s1.downloads ++ [(u, s1.output_convers ++ FILES ++ "/" ++ a.name)] }
        else s1
      { s2 with cnt_files := s2.cnt_files + 1 }
    | none => s
  else s

/-- Translation of `FBParser.check_and_get_files`. -/
def check_and_get_files (mode : FBParserMode) (st : ParserState) (msg : FBMsg) :
    ParserState :=
  msg.attachments.foldl (filesStep mode) st

/-! Specification-side descriptions of what one classification pass over
an attachment list should produce, used to state the claims. -/

/-- Eligibility of one attachment for a media category: the kind must
match and the retrieval URL must be non-null; returns the URL. -/
def mediaLine (kind : String) (urlOf : FBAttachment → Option String)
    (a : FBAttachment) : Option String :=
  if a.attach_type == kind then urlOf a else none

/-- Concatenated URL lines an attachment list contributes to a media
stream, one line per eligible attachment. -/
def mediaStream (kind : String) (urlOf : FBAttachment → Option String) :
    List FBAttachment → String
  | [] => ""
  | a :: l =>
    (match mediaLine kind urlOf a with
     | some u => u ++ "\n"
     | none => "") ++ mediaStream kind urlOf l

/-- Number of eligible attachments in a list for one media category. -/
def mediaCount (kind : String) (urlOf : FBAttachment → Option String)
    (l : List FBAttachment) : Nat :=
  (l.filterMap (mediaLine kind urlOf)).length

/-- Download requests a list of attachments generates for one media
category: one per eligible attachment, into the category-named
subfolder, using the suggested filename. -/
def mediaDownloads (kind : String) (urlOf : FBAttachment → Option String)
    (folder : String) (out : String) (l : List FBAttachment) :
    List (String × String) :=
  l.filterMap (fun a =>
    (mediaLine kind urlOf a).map (fun u => (u, out ++ folder ++ "/" ++ a.name)))

theorem picsFold (mode : FBParserMode) (l : List FBAttachment) (st : ParserState) :
    l.foldl (picsStep mode) st =
      { st with
        pics := st.pics ++ mediaStream "photo" FBAttachment.preview_url l,
        cnt_pics := st.cnt_pics + mediaCount "photo" FBAttachment.preview_url l,
        downloads := st.downloads ++
          (if mode == FBParserMode.dl then
            mediaDownloads "photo" FBAttachment.preview_url PICTURES
              st.output_convers l
          else []) } := by
  induction l generalizing st with
  | nil => simp [mediaStream, mediaCount, mediaDownloads]
  | cons a l ih =>
    simp only [List.foldl_cons]
    rw [ih]
    cases mode <;>
      by_cases h : a.attach_type = "photo" <;>
      cases hu : a.preview_url <;>
      simp [picsStep, mediaStream, mediaCount, mediaDownloads, mediaLine, h, hu,
            String.append_assoc, List.append_assoc, List.filterMap_cons] <;>
      omega

theorem gifsFold (mode : FBParserMode) (l : List FBAttachment) (st : ParserState) :
    l.foldl (gifsStep mode) st =
      { st with
        gifs := st.gifs ++ mediaStream "animated_image" FBAttachment.preview_url l,
        cnt_gifs := st.cnt_gifs + mediaCount "animated_image" FBAttachment.preview_url l,
        downloads := st.downloads ++
          (if mode == FBParserMode.dl then
            mediaDownloads "animated_image" FBAttachment.preview_url GIFS
              st.output_convers l
          else []) } := by
  induction l generalizing st with
  | nil => simp [mediaStream, mediaCount, mediaDownloads]
  | cons a l ih =>
    simp only [List.foldl_cons]
    rw [ih]
    cases mode <;>
      by_cases h : a.attach_type = "animated_image" <;>
      cases hu : a.preview_url <;>
      simp [gifsStep, mediaStream, mediaCount, mediaDownloads, mediaLine, h, hu,
            String.append_assoc, List.append_assoc, List.filterMap_cons] <;>
      omega

theorem videosFold (mode : FBParserMode) (l : List FBAttachment) (st : ParserState) :
    l.foldl (videosStep mode) st =
      { st with
        videos := st.videos ++ mediaStream "video" FBAttachment.url l,
        cnt_videos := st.cnt_videos + mediaCount "video" FBAttachment.url l,
        downloads := st.downloads ++
          (if mode == FBParserMode.dl then
            mediaDownloads "video" FBAttachment.url VIDEOS st.output_convers l
          else []) } := by
  induction l generalizing st with
  | nil => simp [mediaStream, mediaCount, mediaDownloads]
  | cons a l ih =>
    simp only [List.foldl_cons]
    rw [ih]
    cases mode <;>
      by_cases h : a.attach_type = "video" <;>
      cases hu : a.url <;>
      simp [videosStep, mediaStream, mediaCount, mediaDownloads, mediaLine, h, hu,
            String.append_assoc, List.append_assoc, List.filterMap_cons] <;>
      omega

theorem filesFold (mode : FBParserMode) (l : List FBAttachment) (st : ParserState) :
    l.foldl (filesStep mode) st =
      { st with
        files := st.files ++ mediaStream "file" FBAttachment.url l,
        cnt_files := st.cnt_files + mediaCount "file" FBAttachment.url l,
        downloads := st.downloads ++
          (if mode == FBParserMode.dl then
            mediaDownloads "file" FBAttachment.url FILES st.output_convers l
          else []) } := by
  induction l generalizing st with
  | nil => simp [mediaStream, mediaCount, mediaDownloads]
  | cons a l ih =>
    simp only [List.foldl_cons]
    rw [ih]
    cases mode <;>
      by_cases h : a.attach_type = "file" <;>
      cases hu : a.url <;>
      simp [filesStep, mediaStream, mediaCount, mediaDownloads, mediaLine, h, hu,
            String.append_assoc, List.append_assoc, List.filterMap_cons] <;>
      omega

/-- C4: for every message and every media category among pictures, gifs,
videos and files, an attachment contributes to the category exactly when
its kind matches and its retrieval URL is non-null; each eligible
attachment emits one URL line into the matching stream and increments
the category counter, a download request into the category-named
subfolder using the suggested filename is emitted only in download mode,
and a null-URL attachment contributes no line, no count and no download
request.  Stated as a full characterisation of the four classification
passes. -/
theorem media_classification (mode : FBParserMode) (st : ParserState)
    (msg : FBMsg) :
    check_and_get_pics mode st msg =
      { st with
        pics := st.pics ++ mediaStream "photo" FBAttachment.preview_url msg.attachments,
        cnt_pics := st.cnt_pics + mediaCount "photo" FBAttachment.preview_url msg.attachments,
        downloads := st.downloads ++
          (if mode == FBParserMode.dl then
            mediaDownloads "photo" FBAttachment.preview_url PICTURES
              st.output_convers msg.attachments
          else []) } ∧
    check_and_get_gifs mode st msg =
      { st with
        gifs := st.gifs ++ mediaStream "animated_image" FBAttachment.preview_url msg.attachments,
        cnt_gifs := st.cnt_gifs + mediaCount "animated_image" FBAttachment.preview_url msg.attachments,
        downloads := st.downloads ++
          (if mode == FBParserMode.dl then
            mediaDownloads "animated_image" FBAttachment.preview_url GIFS
              st.output_convers msg.attachments
          else []) } ∧
    check_and_get_videos mode st msg =
      { st with
        videos := st.videos ++ mediaStream "video" FBAttachment.url msg.attachments,
        cnt_videos := st.cnt_videos + mediaCount "video" FBAttachment.url msg.attachments,
        downloads := st.downloads ++
          (if mode == FBParserMode.dl then
            mediaDownloads "video" FBAttachment.url VIDEOS
              st.output_convers msg.attachments
          else []) } ∧
    check_and_get_files mode st msg =
      { st with
        files := st.files ++ mediaStream "file" FBAttachment.url msg.attachments,
        cnt_files := st.cnt_files + mediaCount "file" FBAttachment.url msg.attachments,
        downloads := st.downloads ++
          (if mode == FBParserMode.dl then
            mediaDownloads "file" FBAttachment.url FILES
              st.output_convers msg.attachments
          else []) } :=
  ⟨picsFold mode msg.attachments st, gifsFold mode msg.attachments st,
   videosFold mode msg.attachments st, filesFold mode msg.attachments st⟩

/-! ## Link extraction (parser.py, check_and_get_links)

The method matches `share.uri` against the redirect-wrapper regular
expression `https:\/\/l.facebook.com\/l.php.u=(.*?)&h=` with `re.search`
and percent-decodes the lazy capture with `urllib.parse.unquote`.  The
unescaped dots of the pattern are wildcards matching one arbitrary
character; the lazy group takes the shortest capture followed by `&h=`;
`re.search` takes the leftmost starting position admitting a full
match. -/

/-- One element of the wrapper pattern: a literal run or a
single-character wildcard (an unescaped regex dot). -/
inductive PatElem
  | lit (s : List Char)
  | wild
deriving DecidableEq

/-- The fixed part of the redirect-wrapper pattern, before the capture
group: `https:\/\/l` `.` `facebook` `.` `com\/l` `.` `php` `.` `u=`. -/
def wrapperPat : List PatElem :=
  [PatElem.lit "https://l".toList, PatElem.wild, PatElem.lit "facebook".toList,
   PatElem.wild, PatElem.lit "com/l".toList, PatElem.wild,
   PatElem.lit "php".toList, PatElem.wild, PatElem.lit "u=".toList]

/-- Consume a literal run from the front of the input, if present. -/
def dropLit : List Char → List Char → Option (List Char)
  | [], cs => some cs
  | p :: ps, c :: cs => if c = p then dropLit ps cs else none
  | _ :: _, [] => none

/-- Match a sequence of pattern elements at the front of the input and
return the remaining input. -/
def matchElems : List PatElem → List Char → Option (List Char)
  | [], cs => some cs
  | PatElem.lit s :: ps, cs => (dropLit s cs).bind (matchElems ps)
  | PatElem.wild :: ps, _ :: cs => matchElems ps cs
  | PatElem.wild :: _, [] => none

/-- Boolean prefix test on character lists. -/
def startsWithChars : List Char → List Char → Bool
  | [], _ => true
  | p :: ps, c :: cs => p = c && startsWithChars ps cs
  | _ :: _, [] => false

/-- Shortest prefix of the input strictly before the first occurrence of
`stop`; `none` when `stop` never occurs.  Models the lazy capture
`(.*?)` followed by the literal `&h=`. -/
def captureUntil (stop : List Char) : List Char → Option (List Char)
  | [] => none
  | c :: cs =>
    if startsWithChars stop (c :: cs) then some []
    else (captureUntil stop cs).map (fun g => c :: g)

/-- Model of `re.search` for the wrapper pattern: try every start
position, leftmost first; at each, match the fixed pattern part then the
lazy capture terminated by `&h=`; return the captured group. -/
def regex_get_url_from_uri : List Char → Option (List Char)
  | [] => none
  | c :: cs =>
    match (matchElems wrapperPat (c :: cs)).bind (captureUntil "&h=".toList) with
    | some g => some g
    | none => regex_get_url_from_uri cs

/-- Numeric value of one hexadecimal digit. -/
def hexDigitVal (c : Char) : Option Nat :=
  if Char.ofNat 48 ≤ c ∧ c ≤ Char.ofNat 57 then some (c.toNat - 48)
  else if Char.ofNat 97 ≤ c ∧ c ≤ Char.ofNat 102 then some (c.toNat - 97 + 10)
  else if Char.ofNat 65 ≤ c ∧ c ≤ Char.ofNat 70 then some (c.toNat - 65 + 10)
  else none

/-- Model of `urllib.parse.unquote`: decode each valid `%XX` escape to
the character with that code, leave invalid escapes untouched.  The
UTF-8 recombination of multi-byte sequences is not modelled; the model
agrees with Python on ASCII targets, which is all the claims use. -/
def pyUnquote : List Char → List Char
  | Char.mk 37 _ :: a :: b :: rest =>
    match hexDigitVal a, hexDigitVal b with
    | some ha, some hb => Char.ofNat (16 * ha + hb) :: pyUnquote rest
    | _, _ => Char.ofNat 37 :: pyUnquote (a :: b :: rest)
  | c :: rest => c :: pyUnquote rest
  | [] => []

/-- Line contributed to the links stream by one attachment: share-kind
attachments with a non-null nested URI contribute the decoded inner
target when the wrapper pattern matches, the raw URI otherwise. -/
def share_line (a : FBAttachment) : Option String :=
  if a.attach_type == "share" then
    a.share_uri.map (fun uri =>
      match regex_get_url_from_uri uri.toList with
      | some g => (pyUnquote g).asString
      | none => uri)
  else none

/-- Loop body of the share-attachment loop of
`FBParser.check_and_get_links`. -/
def linksShareStep (s : ParserState) (a : FBAttachment) : ParserState :=
  if a.attach_type == "share" then
    match a.share_uri with
    | some uri =>
      let line := match regex_get_url_from_uri uri.toList with
        | some g => (pyUnquote g).asString
        | none => uri
      { s with links := s.links ++ line ++ "\n", cnt_links := s.cnt_links + 1 }
    | none => s
  else s

/-- Loop body of the inline-range loop of
`FBParser.check_and_get_links`. -/
def linksRangeStep (s : ParserState) (r : FBRange) : ParserState :=
  { s with links := s.links ++ r.url ++ "\n", cnt_links := s.cnt_links + 1 }

/-- Translation of `FBParser.check_and_get_links`: the share-attachment
loop runs first, then, when the `ranges` key is present, the
inline-range loop. -/
def check_and_get_links (st : ParserState) (msg : FBMsg) : ParserState :=
  let st1 := msg.attachments.foldl linksShareStep st
  match msg.ranges with
  | some rs => rs.foldl linksRangeStep st1
  | none => st1

/-- Concatenated links-stream lines contributed by the share
attachments of a message, in order of appearance. -/
def shareLines : List FBAttachment → String
  | [] => ""
  | a :: l =>
    (match share_line a with
     | some s => s ++ "\n"
     | none => "") ++ shareLines l

/-- Number of links-stream lines contributed by share attachments. -/
def shareCount (l : List FBAttachment) : Nat :=
  (l.filterMap share_line).length

/-- Concatenated links-stream lines contributed by inline link ranges,
each range contributing its own URL unconditionally. -/
def rangeLines : List FBRange → String
  | [] => ""
  | r :: l => r.url ++ "\n" ++ rangeLines l

theorem linksShareFold (l : List FBAttachment) (st : ParserState) :
    l.foldl linksShareStep st =
      { st with links := st.links ++ shareLines l,
                cnt_links := st.cnt_links + shareCount l } := by
  induction l generalizing st with
  | nil => simp [shareLines, shareCount]
  | cons a l ih =>
    simp only [List.foldl_cons]
    rw [ih]
    by_cases h : a.attach_type = "share" <;>
      cases hu : a.share_uri <;>
      simp [linksShareStep, shareLines, shareCount, share_line, h, hu,
            String.append_assoc, List.filterMap_cons] <;>
      omega

theorem linksRangeFold (l : List FBRange) (st : ParserState) :
    l.foldl linksRangeStep st =
      { st with links := st.links ++ rangeLines l,
                cnt_links := st.cnt_links + l.length } := by
  induction l generalizing st with
  | nil => simp [rangeLines]
  | cons r l ih =>
    simp only [List.foldl_cons]
    rw [ih]
    simp [linksRangeStep, rangeLines, String.append_assoc]
    omega

/-- The wrapped share attachment of the link-unwrapping test: the inner
target `https://example.com/x`, percent-encoded inside the redirect
wrapper. -/
def wrappedShareExample : FBAttachment :=
  { attach_type := "share", name := "", preview_url := none, url := none,
    share_uri :=
      some "https://l.facebook.com/l.php?u=https%3A%2F%2Fexample.com%2Fx&h=AT0yz" }

/-- C5: the links stream of a message is the share-attachment lines (a
non-null share URI contributes the decoded inner target when the
redirect-wrapper pattern matches, else the raw URI) followed by one line
per inline link range, in order of appearance; and on the concrete
wrapped URI with inner target `https://example.com/x` the decoded
string, not the wrapped URI, is emitted. -/
theorem links_classification (st : ParserState) (msg : FBMsg) :
    check_and_get_links st msg =
      { st with
        links := st.links ++ shareLines msg.attachments
          ++ rangeLines (msg.ranges.getD []),
        cnt_links := st.cnt_links + shareCount msg.attachments
          + (msg.ranges.getD []).length } ∧
    share_line wrappedShareExample = some "https://example.com/x" := by
  constructor
  · unfold check_and_get_links
    cases hr : msg.ranges with
    | none => rw [linksShareFold]; simp [rangeLines]
    | some rs =>
      simp only [hr]
      rw [linksShareFold, linksRangeFold]
      simp [String.append_assoc]
  · decide

/-! ## Message formatting (parser.py, check_and_get_msg) -/

/-- Escape the quote character and backslashes, as the Python `repr` of
a string does inside its quotes.  Control-character escaping is not
modelled; the claims do not depend on it. -/
def pyReprEsc (q : Char) : List Char → String
  | [] => ""
  | c :: l =>
    (if c = q || c = Char.ofNat 92 then "\\" ++ String.singleton c
     else String.singleton c) ++ pyReprEsc q l

/-- Model of the Python `repr` of a string: single quotes by default,
double quotes when the string contains a single quote but no double
quote. -/
def pyRepr (s : String) : String :=
  let q : Char :=
    if s.toList.contains (Char.ofNat 39) && !(s.toList.contains (Char.ofNat 34))
    then Char.ofNat 34 else Char.ofNat 39
  String.singleton q ++ pyReprEsc q s.toList ++ String.singleton q

/-- The attachment-name summary of `check_and_get_msg`: the names of all
non-error attachments joined with spaces, modelling
`join(str(name) + " " ...)[:-1]`. -/
def attachments_names (l : List FBAttachment) : String :=
  (String.join (l.filterMap (fun a =>
    if a.attach_type != "error" then some (a.name ++ " ") else none))).dropRight 1

/-- The `message_fmt` format string of `FBParser` applied to its five
fields. -/
def message_fmt_line (body attachments username fbid date : String) : String :=
  "Message body: " ++ body ++ " - attachments \x7b" ++ attachments
    ++ "\x7d - sent by: \x27" ++ username ++ "\x27 (" ++ fbid ++ ") - the "
    ++ date ++ "\n"

/-- Translation of `FBParser.check_and_get_msg`.  The author identifier
is the message author with its 5-character prefix stripped; the username
lookup is guarded by a membership test and falls back to the empty
string.  The local-timezone `strftime` rendering of the timestamp is a
parameter, standing for the external datetime library. -/
def check_and_get_msg (strftime : Int → String) (st : ParserState)
    (msg : FBMsg) : ParserState :=
  let fbid := msg.author.drop 5
  let username :=
    if dictMem st.participants fbid then (dictGet st.participants fbid).getD ""
    else ""
  { st with
    msgs := st.msgs ++ message_fmt_line (pyRepr msg.body)
      (attachments_names msg.attachments) username fbid (strftime msg.timestamp),
    cnt_msgs := st.cnt_msgs + 1 }

/-- C10: formatting a message whose stripped author identifier is absent
from the participant directory is total: the formatted line uses the
empty username and the message counter is still incremented exactly
once. -/
theorem msg_formatting_unknown_author (strftime : Int → String)
    (st : ParserState) (msg : FBMsg)
    (h : dictMem st.participants (msg.author.drop 5) = false) :
    check_and_get_msg strftime st msg =
      { st with
        msgs := st.msgs ++ message_fmt_line (pyRepr msg.body)
          (attachments_names msg.attachments) "" (msg.author.drop 5)
          (strftime msg.timestamp),
        cnt_msgs := st.cnt_msgs + 1 } ∧
    (check_and_get_msg strftime st msg).cnt_msgs = st.cnt_msgs + 1 := by
  unfold check_and_get_msg
  simp [h]

/-- The empty parser state used by the concrete witnesses. -/
def emptyParserState : ParserState :=
  { output_convers := "", participants := [], msgs := "", pics := "",
    gifs := "", videos := "", files := "", links := "", cnt_msgs := 0,
    cnt_pics := 0, cnt_gifs := 0, cnt_videos := 0, cnt_files := 0,
    cnt_links := 0, downloads := [] }

/-- A user-generated message by an author absent from the (empty)
participant directory. -/
def unknownAuthorMsg : FBMsg :=
  { action_type := "ma-type:user-generated-message", author := "fbid:42",
    body := "hi", timestamp := 1000, attachments := [], ranges := none }

theorem msg_formatting_unknown_author_witness :
    check_and_get_msg (fun _ => "1970-01-01 00:00:01") emptyParserState
        unknownAuthorMsg =
      { emptyParserState with
        msgs := message_fmt_line (pyRepr "hi") (attachments_names []) "" "42"
          "1970-01-01 00:00:01",
        cnt_msgs := 1 } ∧
    (check_and_get_msg (fun _ => "1970-01-01 00:00:01") emptyParserState
        unknownAuthorMsg).cnt_msgs = 1 := by
  have h := msg_formatting_unknown_author (fun _ => "1970-01-01 00:00:01")
    emptyParserState unknownAuthorMsg (by decide)
  exact h

/-! ## Dumper construction (dumper.py, FBDumper.__init__)

The validation prologue of `__init__` runs before the directory crawl;
the side effects it could perform (reading the raw-data file, creating
the output folder, issuing the listing requests via
`get_all_convers_metadata`) are recorded in an explicit effect log. -/

/-- Observable side effects of `FBDumper.__init__`. -/
inductive InitEffect
  | readInfile (path : String)
  | makedirs (path : String)
  | networkRequest
deriving DecidableEq

/-- Python truthiness of an optional string argument: `None` and the
empty string are falsy. -/
def pyTruthy : Option String → Bool
  | none => false
  | some s => !(s == "")

/-- The attributes stored by a successfully validated `FBDumper`. -/
structure DumperInit where
  user_raw_data : String
  chunk_size : Int
  timer : Int
deriving DecidableEq

/-- Translation of `FBDumper.__init__` up to the directory crawl: the
exclusive-or check on the two raw-data arguments, the file read in the
infile branch, the `chunk_size` and `timer` checks, then the `makedirs`
and the network-using metadata crawl (recorded as effects). -/
def fbdumper_init (user_raw_data infile_user_raw_data : Option String)
    (chunk_size timer : Int) (readFile : String → String) (output : String) :
    Except String DumperInit × List InitEffect :=
  if pyTruthy user_raw_data != pyTruthy infile_user_raw_data then
    let (raw, effs) :=
      if pyTruthy user_raw_data then
        (user_raw_data.getD "", ([] : List InitEffect))
      else
        (readFile (infile_user_raw_data.getD ""),
         [InitEffect.readInfile (infile_user_raw_data.getD "")])
    if chunk_size ≤ 0 then (Except.error "chunk_size", effs)
    else if timer < 0 then (Except.error "timer", effs)
    else
      (Except.ok { user_raw_data := raw, chunk_size := chunk_size, timer := timer },
       effs ++ [InitEffect.makedirs output, InitEffect.networkRequest])
  else (Except.error "xor", [])

/-- C9: constructing a dumper fails with `ValueError`, with no network
request and no directory creation, unless exactly one of the raw-data
arguments is truthy, the chunk size is strictly positive and the timer
is non-negative; on success the chunk size and timer are stored
unchanged. -/
theorem dumper_init_validation (u i : Option String) (cs t : Int)
    (rf : String → String) (out : String) :
    (¬ (pyTruthy u ≠ pyTruthy i ∧ 0 < cs ∧ 0 ≤ t) →
      (∃ e, (fbdumper_init u i cs t rf out).1 = Except.error e) ∧
      InitEffect.networkRequest ∉ (fbdumper_init u i cs t rf out).2 ∧
      (∀ p, InitEffect.makedirs p ∉ (fbdumper_init u i cs t rf out).2)) ∧
    ((pyTruthy u ≠ pyTruthy i ∧ 0 < cs ∧ 0 ≤ t) →
      ∃ st, (fbdumper_init u i cs t rf out).1 = Except.ok st ∧
        st.chunk_size = cs ∧ st.timer = t) := by
  unfold fbdumper_init
  by_cases hx : pyTruthy u = pyTruthy i <;>
    by_cases hc : cs ≤ 0 <;>
    by_cases ht : t < 0 <;>
    by_cases hu : pyTruthy u <;>
    by_cases hi : pyTruthy i <;>
    simp [hx, hc, ht, hu, hi]

theorem dumper_init_validation_witness :
    (∃ st, (fbdumper_init (some "cookie: c") none 2000 1 (fun _ => "") "output").1
        = Except.ok st ∧ st.chunk_size = 2000 ∧ st.timer = 1) ∧
    (∃ e, (fbdumper_init (some "cookie: c") (some "f.txt") 2000 1 (fun _ => "")
        "output").1 = Except.error e) ∧
    InitEffect.networkRequest ∉
      (fbdumper_init (some "cookie: c") (some "f.txt") 2000 1 (fun _ => "")
        "output").2 := by
  refine ⟨?_, ?_, ?_⟩
  · exact (dumper_init_validation (some "cookie: c") none 2000 1
      (fun _ => "") "output").2 (by refine ⟨by decide, by omega, by omega⟩)
  · exact ((dumper_init_validation (some "cookie: c") (some "f.txt") 2000 1
      (fun _ => "") "output").1 (by simp [pyTruthy])).1
  · exact ((dumper_init_validation (some "cookie: c") (some "f.txt") 2000 1
      (fun _ => "") "output").1 (by simp [pyTruthy])).2.1

/-! ## Download outcome collection (parser.py, wait_threads)

The `as_completed` loop observes the batch outcomes in completion
order.  Its observable behaviour is embedded as a fold over that
completion-ordered list.  `cnt` models `loading_thread.cnt`, decremented
in the `finally` block of every iteration — including the iteration that
re-raises; `reported` collects the per-failure `(url, reason)` lines
printed when `to_stdout` is set. -/

/-- Outcome of one download future. -/
inductive DlOutcome
  | saved
  | failed (reason : String)
deriving DecidableEq

/-- Translation of the `as_completed` loop of `FBParser.wait_threads`:
on a failed outcome, report and continue when `to_stdout` is set,
re-raise (aborting the loop) otherwise. -/
def waitLoop (to_stdout : Bool) :
    List (String × DlOutcome) → Int → List (String × String) →
    Except (String × Int) (List (String × String) × Int)
  | [], cnt, rep => Except.ok (rep, cnt)
  | (url, o) :: rest, cnt, rep =>
    match o with
    | DlOutcome.saved => waitLoop to_stdout rest (cnt - 1) rep
    | DlOutcome.failed e =>
      if to_stdout then waitLoop to_stdout rest (cnt - 1) (rep ++ [(url, e)])
      else Except.error (e, cnt - 1)

/-- Entry point of the outcome collection for one batch: the pending
count starts at the number of submitted requests. -/
def wait_threads (to_stdout : Bool) (outcomes : List (String × DlOutcome)) :
    Except (String × Int) (List (String × String) × Int) :=
  waitLoop to_stdout outcomes outcomes.length []

/-- Failing requests of a batch with their reasons, in completion
order. -/
def dlFailures (outcomes : List (String × DlOutcome)) : List (String × String) :=
  outcomes.filterMap (fun p =>
    match p.2 with
    | DlOutcome.failed e => some (p.1, e)
    | DlOutcome.saved => none)

theorem waitLoop_report (outs : List (String × DlOutcome)) :
    ∀ (cnt : Int) (rep : List (String × String)),
      waitLoop true outs cnt rep =
        Except.ok (rep ++ dlFailures outs, cnt - outs.length) := by
  induction outs with
  | nil => intro cnt rep; simp [waitLoop, dlFailures]
  | cons p rest ih =>
    intro cnt rep
    obtain ⟨url, o⟩ := p
    cases o with
    | saved =>
      simp [waitLoop, dlFailures, List.filterMap_cons, ih]
      ring
    | failed e =>
      simp [waitLoop, dlFailures, List.filterMap_cons, ih]
      ring

theorem waitLoop_failfast (url e : String) (rest : List (String × DlOutcome)) :
    ∀ (pre : List (String × DlOutcome)), (∀ p ∈ pre, p.2 = DlOutcome.saved) →
      ∀ (cnt : Int) (rep : List (String × String)),
        waitLoop false (pre ++ (url, DlOutcome.failed e) :: rest) cnt rep =
          Except.error (e, cnt - pre.length - 1) := by
  intro pre
  induction pre with
  | nil => intro _ cnt rep; simp [waitLoop]
  | cons p pre ih =>
    intro hsaved cnt rep
    obtain ⟨u, o⟩ := p
    have ho : o = DlOutcome.saved := hsaved (u, o) (List.mem_cons_self _ _)
    subst ho
    simp only [List.cons_append, waitLoop]
    show waitLoop false (pre ++ (url, DlOutcome.failed e) :: rest) (cnt - 1) rep = _
    rw [ih (fun q hq => hsaved q (List.mem_cons_of_mem _ hq))]
    congr 2
    simp [List.length_cons]
    ring

/-- C8: with the report flag set, every outcome of the batch resolves
exactly once — the pending count reaches zero — and each failing request
is recorded with its URL and reason while the rest of the batch is still
collected; with the flag unset, the first observed failure is re-raised,
aborting the batch immediately. -/
theorem download_failure_policy (outs : List (String × DlOutcome)) :
    wait_threads true outs = Except.ok (dlFailures outs, 0) ∧
    (∀ pre url e rest, outs = pre ++ (url, DlOutcome.failed e) :: rest →
      (∀ p ∈ pre, p.2 = DlOutcome.saved) →
      wait_threads false outs =
        Except.error (e, (outs.length : Int) - pre.length - 1)) := by
  constructor
  · unfold wait_threads
    rw [waitLoop_report]
    simp
  · intro pre url e rest houts hsaved
    subst houts
    unfold wait_threads
    rw [waitLoop_failfast url e rest pre hsaved]

theorem download_failure_policy_witness :
    wait_threads true [("a", DlOutcome.saved), ("b", DlOutcome.failed "conn")] =
      Except.ok ([("b", "conn")], 0) ∧
    wait_threads false [("a", DlOutcome.saved), ("b", DlOutcome.failed "conn")] =
      Except.error ("conn", 0) := by
  have h := download_failure_policy
    [("a", DlOutcome.saved), ("b", DlOutcome.failed "conn")]
  refine ⟨?_, ?_⟩
  · have h1 := h.1
    simpa [dlFailures] using h1
  · have h2 := h.2 [("a", DlOutcome.saved)] "b" "conn" [] rfl
      (by intro p hp; simp at hp; simp [hp])
    simpa using h2

/-! ## Conversation directory crawl (dumper.py, get_all_convers_metadata)

Raw response records model the JSON pages of `threadlist_info.php`.
Every field a record may lack is an `Option`; the Python `KeyError` on a
missing key becomes an `Except.error`.  The local dicts the Python
function mutates are threaded functionally; when a page is malformed the
exception propagates out of `__init__`, discarding them, so the
embedding returns an error carrying no maps. -/

/-- One record of the `participants` array of a listing page. -/
structure RawParticipant where
  fbid : Option String
  name : Option String
deriving DecidableEq

/-- One record of the `threads` array of a listing page. -/
structure RawThread where
  thread_type : Option Int
  name : Option String
  other_user_fbid : Option String
  thread_fbid : Option String
  participants : Option (List String)
  last_message_timestamp : Option Int
deriving DecidableEq

/-- One listing page, i.e. the `payload` of one response. -/
structure RawPage where
  threads : Option (List RawThread)
  participants : Option (List RawParticipant)
deriving DecidableEq

/-- The `FBConversType` enum of lib.py. -/
inductive FBConversType
  | group
  | user
deriving DecidableEq

/-- The `current_convers` dict built per thread record; fields start
absent and are filled in while the record is processed. -/
structure CurrentConvers where
  type : Option FBConversType
  name : Option String
  status : Option String
  participants : Option (List String)
  last_message_timestamp : Option Int
deriving DecidableEq

/-- The empty `current_convers` dict, re-created for each page. -/
def emptyCurrent : CurrentConvers :=
  { type := none, name := none, status := none, participants := none,
    last_message_timestamp := none }

/-- Read a JSON field, raising `KeyError` when the key is absent. -/
def oget {α : Type} (o : Option α) (key : String) : Except String α :=
  match o with
  | some v => Except.ok v
  | none => Except.error ("KeyError: " ++ key)

/-- Merge the participants of one page into the shared directory, last
write winning on identifier collision. -/
def mergeParticipants (ps : List (String × String)) (l : List RawParticipant) :
    Except String (List (String × String)) :=
  l.foldlM (fun d p => do
    let fbid ← oget p.fbid "fbid"
    let name ← oget p.name "name"
    pure (dictInsert d fbid name)) ps

/-- Loop body over one thread record of a page, as in
`get_all_convers_metadata`: resolve type and display name (group
threads carry their own name, direct threads take the other
participant's directory entry), set status, participants and last
message timestamp, then key the snapshot by `thread_fbid`. -/
def processThread (status : String) (ps : List (String × String))
    (acc : List (String × CurrentConvers) × CurrentConvers) (c : RawThread) :
    Except String (List (String × CurrentConvers) × CurrentConvers) := do
  let (convers, cur) := acc
  let tt ← oget c.thread_type "thread_type"
  let cur ←
    if tt = 2 then do
      let nm ← oget c.name "name"
      pure { cur with type := some FBConversType.group, name := some nm }
    else if tt = 1 then do
      let ou ← oget c.other_user_fbid "other_user_fbid"
      let nm ← oget (dictGet ps ou) "participant"
      pure { cur with type := some FBConversType.user, name := some nm }
    else pure cur
  let prts ← oget c.participants "participants"
  let lmt ← oget c.last_message_timestamp "last_message_timestamp"
  let cur2 : CurrentConvers :=
    { cur with status := some status, participants := some prts,
               last_message_timestamp := some lmt }
  let tfbid ← oget c.thread_fbid "thread_fbid"
  pure (dictInsert convers tfbid cur2, cur2)

/-- Processing of one listing page: merge its participants, then fold
the thread loop, returning the updated maps and the thread count the
termination test reads. -/
def processListPage (status : String) (convers : List (String × CurrentConvers))
    (ps : List (String × String)) (page : RawPage) :
    Except String
      (List (String × CurrentConvers) × List (String × String) × Nat) := do
  let jthreads ← oget page.threads "threads"
  let jparts ← oget page.participants "participants"
  let ps2 ← mergeParticipants ps jparts
  let folded ← jthreads.foldlM (processThread status ps2) (convers, emptyCurrent)
  pure (folded.1, ps2, jthreads.length)

/-- Result of one partition of the directory crawl, carrying the list
of offsets requested. -/
inductive ListCrawlResult
  | ok (convers : List (String × CurrentConvers)) (ps : List (String × String))
      (reqs : List Nat)
  | err (e : String) (reqs : List Nat)
  | outOfFuel (reqs : List Nat)
deriving DecidableEq

/-- The offset-paging loop of `get_all_convers_metadata` for one status
partition, fuel-indexed: request the page at the current offset, merge
it, stop when it held strictly fewer than `chunk` records, else advance
the offset by `chunk`. -/
def listPartitionLoop (src : Nat → RawPage) (chunk : Nat) (status : String) :
    Nat → Nat → List (String × CurrentConvers) → List (String × String) →
    List Nat → ListCrawlResult
  | 0, _, _, _, reqs => ListCrawlResult.outOfFuel reqs
  | fuel + 1, offset, convers, ps, reqs =>
    match processListPage status convers ps (src offset) with
    | Except.error e => ListCrawlResult.err e (reqs ++ [offset])
    | Except.ok (convers2, ps2, n) =>
      if n < chunk then ListCrawlResult.ok convers2 ps2 (reqs ++ [offset])
      else listPartitionLoop src chunk status fuel (offset + chunk) convers2 ps2
        (reqs ++ [offset])

/-- The class constant `_chunk_size_convers`. -/
def chunk_size_convers : Nat := 1000

/-- Translation of `get_all_convers_metadata`: crawl the inbox
partition, then the archived partition, sequentially, sharing the two
maps. -/
def get_all_convers_metadata (srcInbox srcArchived : Nat → RawPage)
    (chunk fuel : Nat) : ListCrawlResult :=
  match listPartitionLoop srcInbox chunk "inbox" fuel 0 [] [] [] with
  | ListCrawlResult.ok convers ps reqs =>
    (match listPartitionLoop srcArchived chunk "archived" fuel 0 convers ps [] with
     | ListCrawlResult.ok convers2 ps2 reqs2 =>
       ListCrawlResult.ok convers2 ps2 (reqs ++ reqs2)
     | r => r)
  | r => r

/-- True exactly when a computation raised. -/
def exceptErrored {ε α : Type} : Except ε α → Bool
  | Except.error _ => true
  | Except.ok _ => false

theorem foldlM_errored {α β : Type} (f : β → α → Except String β) (t : α)
    (herr : ∀ acc, exceptErrored (f acc t) = true) :
    ∀ (l : List α), t ∈ l → ∀ acc, exceptErrored (l.foldlM f acc) = true := by
  intro l
  induction l with
  | nil => intro h; cases h
  | cons a l ih =>
    intro hmem acc
    rcases List.mem_cons.mp hmem with heq | hmem2
    · subst heq
      have := herr acc
      cases hfa : f acc t with
      | error e => simp [List.foldlM_cons, hfa, Bind.bind, Except.bind, exceptErrored]
      | ok acc2 => rw [hfa] at this; simp [exceptErrored] at this
    · cases hfa : f acc a with
      | error e => simp [List.foldlM_cons, hfa, Bind.bind, Except.bind, exceptErrored]
      | ok acc2 =>
        have := ih hmem2 acc2
        simp [List.foldlM_cons, hfa, this, Bind.bind, Except.bind]

/-- A participant record of a listing page is malformed when either of
the two keys the source reads (`fbid`, `name`) is missing. -/
def participantMissingField (p : RawParticipant) : Prop :=
  p.fbid = none ∨ p.name = none

/-- A thread record of a listing page is malformed when any field the
source reads for it is missing: `thread_type` always; `name` for group
records; `other_user_fbid` for direct records; and `participants`,
`last_message_timestamp` and `thread_fbid` always. -/
def threadMissingField (t : RawThread) : Prop :=
  t.thread_type = none ∨
  (t.thread_type = some 2 ∧ t.name = none) ∨
  (t.thread_type = some 1 ∧ t.other_user_fbid = none) ∨
  t.participants = none ∨
  t.last_message_timestamp = none ∨
  t.thread_fbid = none

/-- A listing page is malformed when an expected field is missing
anywhere in it: the `threads` or `participants` key itself, a field of
one of its participant records, or a field of one of its thread
records. -/
def pageMalformed (page : RawPage) : Prop :=
  page.threads = none ∨
  page.participants = none ∨
  (∃ p ∈ page.participants.getD [], participantMissingField p) ∨
  (∃ t ∈ page.threads.getD [], threadMissingField t)

instance (p : RawParticipant) : Decidable (participantMissingField p) :=
  inferInstanceAs (Decidable (p.fbid = none ∨ p.name = none))

instance (t : RawThread) : Decidable (threadMissingField t) :=
  inferInstanceAs (Decidable (t.thread_type = none ∨
    (t.thread_type = some 2 ∧ t.name = none) ∨
    (t.thread_type = some 1 ∧ t.other_user_fbid = none) ∨
    t.participants = none ∨
    t.last_message_timestamp = none ∨
    t.thread_fbid = none))

instance (page : RawPage) : Decidable (pageMalformed page) :=
  inferInstanceAs (Decidable (page.threads = none ∨
    page.participants = none ∨
    (∃ p ∈ page.participants.getD [], participantMissingField p) ∨
    (∃ t ∈ page.threads.getD [], threadMissingField t)))

theorem processThread_missing_field (status : String)
    (ps : List (String × String)) (t : RawThread)
    (hmal : threadMissingField t)
    (acc : List (String × CurrentConvers) × CurrentConvers) :
    exceptErrored (processThread status ps acc t) = true := by
  obtain ⟨convers, cur⟩ := acc
  rcases t with ⟨tt, nm, ou, tf, prt, lmt⟩
  unfold threadMissingField at hmal
  simp only at hmal
  cases tt with
  | none => rfl
  | some v =>
    by_cases h2 : v = 2
    · subst h2
      cases nm with
      | none => cases prt <;> cases lmt <;> cases tf <;> rfl
      | some n =>
        cases prt with
        | none => cases lmt <;> cases tf <;> rfl
        | some pv =>
          cases lmt with
          | none => cases tf <;> rfl
          | some lv =>
            cases tf with
            | none => rfl
            | some f => simp at hmal
    · by_cases h1 : v = 1
      · subst h1
        cases ou with
        | none =>
          simp [processThread, oget, h2, exceptErrored, Bind.bind, Except.bind,
                Pure.pure, Except.pure]
        | some ouv =>
          cases hl : dictGet ps ouv with
          | none =>
            simp [processThread, oget, h2, hl, exceptErrored, Bind.bind,
                  Except.bind, Pure.pure, Except.pure]
          | some nmv =>
            cases prt with
            | none =>
              cases lmt <;> cases tf <;>
                simp [processThread, oget, h2, hl, exceptErrored, Bind.bind,
                      Except.bind, Pure.pure, Except.pure]
            | some pv =>
              cases lmt with
              | none =>
                cases tf <;>
                  simp [processThread, oget, h2, hl, exceptErrored, Bind.bind,
                        Except.bind, Pure.pure, Except.pure]
              | some lv =>
                cases tf with
                | none =>
                  simp [processThread, oget, h2, hl, exceptErrored, Bind.bind,
                        Except.bind, Pure.pure, Except.pure]
                | some f => simp at hmal
      · cases prt with
        | none =>
          cases lmt <;> cases tf <;>
            simp [processThread, oget, h2, h1, exceptErrored, Bind.bind,
                  Except.bind, Pure.pure, Except.pure]
        | some pv =>
          cases lmt with
          | none =>
            cases tf <;>
              simp [processThread, oget, h2, h1, exceptErrored, Bind.bind,
                    Except.bind, Pure.pure, Except.pure]
          | some lv =>
            cases tf with
            | none =>
              simp [processThread, oget, h2, h1, exceptErrored, Bind.bind,
                    Except.bind, Pure.pure, Except.pure]
            | some f => simp [h2, h1] at hmal

theorem mergeParticipants_missing (ps : List (String × String))
    (l : List RawParticipant) (p : RawParticipant) (hp : p ∈ l)
    (hmal : participantMissingField p) :
    exceptErrored (mergeParticipants ps l) = true := by
  unfold mergeParticipants
  refine foldlM_errored _ p ?_ l hp ps
  intro d
  rcases p with ⟨fb, nm⟩
  unfold participantMissingField at hmal
  simp only at hmal
  cases fb with
  | none => rfl
  | some v =>
    cases nm with
    | none => rfl
    | some w => simp at hmal

/-- C6: a directory page in which some record is missing an expected
field — the `threads` or `participants` key itself, any field of a
participant record, or any field a thread record needs for its type —
is a fatal protocol error and is not partially merged: page processing
returns an error carrying no maps, and the partition loop, upon
requesting such a page, aborts with an error result retaining no
conversation index and no participant directory.  In the Python source
the raised `KeyError` propagates out of `__init__`, so the partially
mutated function-local dicts are discarded. -/
theorem malformed_page_is_fatal (status : String)
    (convers : List (String × CurrentConvers)) (ps : List (String × String))
    (page : RawPage) (hmal : pageMalformed page) :
    exceptErrored (processListPage status convers ps page) = true ∧
    (∀ src chunk fuel offset reqs, src offset = page →
      ∃ e, listPartitionLoop src chunk status (fuel + 1) offset convers ps reqs =
        ListCrawlResult.err e (reqs ++ [offset])) := by
  have hpage : exceptErrored (processListPage status convers ps page) = true := by
    cases ht : page.threads with
    | none =>
      simp [processListPage, oget, ht, exceptErrored, Bind.bind, Except.bind]
    | some ts =>
      cases hp : page.participants with
      | none =>
        simp [processListPage, oget, ht, hp, exceptErrored, Bind.bind,
              Except.bind]
      | some l =>
        have hrec : (∃ p ∈ l, participantMissingField p) ∨
            (∃ t ∈ ts, threadMissingField t) := by
          unfold pageMalformed at hmal
          rcases hmal with h | h | h | h
          · rw [ht] at h; cases h
          · rw [hp] at h; cases h
          · rw [hp] at h; exact Or.inl (by simpa using h)
          · rw [ht] at h; exact Or.inr (by simpa using h)
        rcases hrec with ⟨p, hpmem, hpmal⟩ | ⟨t, htmem, htmal⟩
        · have hmp := mergeParticipants_missing ps l p hpmem hpmal
          cases hmerge : mergeParticipants ps l with
          | error e =>
            simp [processListPage, oget, ht, hp, hmerge, exceptErrored,
                  Bind.bind, Except.bind]
          | ok ps2 => rw [hmerge] at hmp; simp [exceptErrored] at hmp
        · cases hmerge : mergeParticipants ps l with
          | error e =>
            simp [processListPage, oget, ht, hp, hmerge, exceptErrored,
                  Bind.bind, Except.bind]
          | ok ps2 =>
            have hf := foldlM_errored (processThread status ps2) t
              (fun acc => processThread_missing_field status ps2 t htmal acc)
              ts htmem (convers, emptyCurrent)
            cases hfold : ts.foldlM (processThread status ps2)
                (convers, emptyCurrent) with
            | error e =>
              simp [processListPage, oget, ht, hp, hmerge, hfold,
                    exceptErrored, Bind.bind, Except.bind]
            | ok r => rw [hfold] at hf; simp [exceptErrored] at hf
  refine ⟨hpage, ?_⟩
  intro src chunk fuel offset reqs hsrc
  cases hres : processListPage status convers ps (src offset) with
  | error e => exact ⟨e, by simp [listPartitionLoop, hres]⟩
  | ok r =>
    rw [hsrc] at hres
    rw [hres] at hpage
    simp [exceptErrored] at hpage

/-- A thread record whose `thread_fbid` key is missing. -/
def badThread : RawThread :=
  { thread_type := some 2, name := some "g", other_user_fbid := none,
    thread_fbid := none, participants := some [], last_message_timestamp := some 0 }

/-- A participant record whose `name` key is missing. -/
def badParticipant : RawParticipant :=
  { fbid := some "77", name := none }

/-- A listing page containing the malformed thread record. -/
def badPage : RawPage :=
  { threads := some [badThread], participants := some [] }

/-- A listing page containing the malformed participant record. -/
def badParticipantPage : RawPage :=
  { threads := some [], participants := some [badParticipant] }

theorem malformed_page_is_fatal_witness :
    (exceptErrored (processListPage "inbox" [] [] badPage) = true ∧
     ∃ e, listPartitionLoop (fun _ => badPage) 1000 "inbox" 1 0 [] [] [] =
       ListCrawlResult.err e [0]) ∧
    exceptErrored (processListPage "inbox" [] [] badParticipantPage) = true := by
  have h := malformed_page_is_fatal "inbox" [] [] badPage (by decide)
  have h2 := malformed_page_is_fatal "inbox" [] [] badParticipantPage (by decide)
  exact ⟨⟨h.1, h.2 (fun _ => badPage) 1000 0 0 [] rfl⟩, h2.1⟩

/-! ## Directory pagination on a well-behaved source (claim C2 setup)

A well-behaved partition source holds a fixed list of complete group
thread records and serves, at each offset, the `chunk_size`-bounded
slice starting there, with an empty participants array. -/

/-- The identifier keying a thread record in the conversation index. -/
def tid (t : RawThread) : String := t.thread_fbid.getD ""

/-- A complete (no missing field) group-conversation thread record. -/
def wfGroupThread (t : RawThread) : Prop :=
  t.thread_type = some 2 ∧ t.name.isSome = true ∧ t.participants.isSome = true ∧
  t.last_message_timestamp.isSome = true ∧ t.thread_fbid.isSome = true

/-- The `current_convers` snapshot stored for a complete group thread
record. -/
def mkGroupMeta (status : String) (t : RawThread) : CurrentConvers :=
  { type := some FBConversType.group, name := t.name, status := some status,
    participants := t.participants,
    last_message_timestamp := t.last_message_timestamp }

/-- Keys of the association-list dictionary model, in insertion
order. -/
def keysOf {α : Type} (d : List (String × α)) : List String := d.map Prod.fst

/-- The well-behaved paginated source over a record list. -/
def sliceSource (records : List RawThread) (chunk : Nat) : Nat → RawPage :=
  fun offset =>
    { threads := some ((records.drop offset).take chunk), participants := some [] }

theorem dictMem_iff_keys {α : Type} (d : List (String × α)) (k : String) :
    dictMem d k = true ↔ k ∈ keysOf d := by
  simp [dictMem, keysOf, List.any_eq_true, List.mem_map, beq_iff_eq]

theorem dictInsert_fresh {α : Type} (d : List (String × α)) (k : String) (v : α)
    (h : k ∉ keysOf d) : dictInsert d k v = d ++ [(k, v)] := by
  unfold dictInsert
  have : d.any (fun p => p.1 == k) = false := by
    by_contra hc
    have : dictMem d k = true := by
      simpa [dictMem] using eq_true_of_ne_false hc
    exact h ((dictMem_iff_keys d k).mp this)
  simp [this]

theorem processThread_wf (status : String) (ps : List (String × String))
    (convers : List (String × CurrentConvers)) (cur : CurrentConvers)
    (t : RawThread) (hwf : wfGroupThread t) (hfresh : tid t ∉ keysOf convers) :
    processThread status ps (convers, cur) t =
      Except.ok (convers ++ [(tid t, mkGroupMeta status t)], mkGroupMeta status t) := by
  obtain ⟨htt, hnm, hprt, hlmt, htf⟩ := hwf
  have hins := dictInsert_fresh convers (tid t) (mkGroupMeta status t) hfresh
  rcases t with ⟨tt, nm, ou, tf, prt, lmt⟩
  simp only at htt hnm hprt hlmt htf
  obtain ⟨n, rfl⟩ := Option.isSome_iff_exists.mp hnm
  obtain ⟨p, rfl⟩ := Option.isSome_iff_exists.mp hprt
  obtain ⟨lm, rfl⟩ := Option.isSome_iff_exists.mp hlmt
  obtain ⟨f, rfl⟩ := Option.isSome_iff_exists.mp htf
  subst htt
  simp only [tid, Option.getD_some, mkGroupMeta] at hins
  simp [processThread, oget, Bind.bind, Except.bind, Pure.pure, Except.pure,
        tid, mkGroupMeta, hins]

theorem threadsFold_wf (status : String) (ps : List (String × String)) :
    ∀ (l : List RawThread) (convers : List (String × CurrentConvers))
      (cur : CurrentConvers),
      (∀ t ∈ l, wfGroupThread t) → (l.map tid).Nodup →
      (∀ t ∈ l, tid t ∉ keysOf convers) →
      ∃ c, l.foldlM (processThread status ps) (convers, cur) =
        Except.ok (convers ++ l.map (fun t => (tid t, mkGroupMeta status t)), c) := by
  intro l
  induction l with
  | nil =>
    intro convers cur _ _ _
    exact ⟨cur, by simp [List.foldlM_nil, Pure.pure, Except.pure]⟩
  | cons a l ih =>
    intro convers cur hwf hnd hfresh
    have ha := processThread_wf status ps convers cur a
      (hwf a (List.mem_cons_self _ _)) (hfresh a (List.mem_cons_self _ _))
    have hnd0 : tid a ∉ l.map tid ∧ (l.map tid).Nodup := by
      rw [List.map_cons] at hnd
      exact List.nodup_cons.mp hnd
    have hne : ∀ t ∈ l, tid t ≠ tid a := by
      intro t ht he
      exact hnd0.1 (he ▸ List.mem_map_of_mem tid ht)
    have hfresh2 : ∀ t ∈ l,
        tid t ∉ keysOf (convers ++ [(tid a, mkGroupMeta status a)]) := by
      intro t ht
      simp only [keysOf, List.map_append, List.map_cons, List.map_nil,
                 List.mem_append, List.mem_singleton]
      push_neg
      exact ⟨hfresh t (List.mem_cons_of_mem _ ht), hne t ht⟩
    obtain ⟨c, hc⟩ := ih (convers ++ [(tid a, mkGroupMeta status a)])
      (mkGroupMeta status a) (fun t ht => hwf t (List.mem_cons_of_mem _ ht))
      hnd0.2 hfresh2
    refine ⟨c, ?_⟩
    simp [List.foldlM_cons, ha, Bind.bind, Except.bind, hc, List.append_assoc]

theorem processListPage_wf (status : String)
    (convers : List (String × CurrentConvers)) (ps : List (String × String))
    (l : List RawThread) (hwf : ∀ t ∈ l, wfGroupThread t)
    (hnd : (l.map tid).Nodup) (hfresh : ∀ t ∈ l, tid t ∉ keysOf convers) :
    processListPage status convers ps
        { threads := some l, participants := some [] } =
      Except.ok (convers ++ l.map (fun t => (tid t, mkGroupMeta status t)),
                 ps, l.length) := by
  obtain ⟨c, hc⟩ := threadsFold_wf status ps l convers emptyCurrent hwf hnd hfresh
  simp [processListPage, oget, mergeParticipants, Bind.bind, Except.bind,
        Pure.pure, Except.pure, hc]

theorem listLoop_well_behaved (records : List RawThread) (chunk : Nat)
    (status : String) (hchunk : 0 < chunk) :
    ∀ (fuel offset : Nat) (convers : List (String × CurrentConvers))
      (ps : List (String × String)) (reqs : List Nat),
      (∀ t ∈ records.drop offset, wfGroupThread t) →
      ((records.drop offset).map tid).Nodup →
      (∀ t ∈ records.drop offset, tid t ∉ keysOf convers) →
      (records.drop offset).length % chunk ≠ 0 →
      (records.drop offset).length / chunk + 1 ≤ fuel →
      listPartitionLoop (sliceSource records chunk) chunk status fuel offset
          convers ps reqs =
        ListCrawlResult.ok
          (convers ++ (records.drop offset).map
            (fun t => (tid t, mkGroupMeta status t)))
          ps
          (reqs ++ (List.range ((records.drop offset).length / chunk + 1)).map
            (fun k => offset + k * chunk)) := by
  intro fuel
  induction fuel with
  | zero =>
    intro offset convers ps reqs _ _ _ _ hf
    exact (Nat.not_succ_le_zero _ hf).elim
  | succ fuel ih =>
    intro offset convers ps reqs hwf hnd hfresh hrem hfuel
    have hsub := List.take_subset chunk (records.drop offset)
    have hndtake : (((records.drop offset).take chunk).map tid).Nodup :=
      List.Nodup.sublist (List.Sublist.map tid (List.take_sublist _ _)) hnd
    have hpage := processListPage_wf status convers ps
      ((records.drop offset).take chunk)
      (fun t ht => hwf t (hsub ht)) hndtake
      (fun t ht => hfresh t (hsub ht))
    have hsrc : sliceSource records chunk offset =
        { threads := some ((records.drop offset).take chunk),
          participants := some [] } := rfl
    by_cases hlt : (records.drop offset).length < chunk
    · have htake : (records.drop offset).take chunk = records.drop offset :=
        List.take_of_length_le (Nat.le_of_lt hlt)
      have hdiv : (records.drop offset).length / chunk = 0 :=
        Nat.div_eq_of_lt hlt
      rw [htake] at hpage hsrc
      simp only [listPartitionLoop, hsrc, hpage]
      rw [if_pos hlt, hdiv]
      have hr1 : List.range (0 + 1) = [0] := rfl
      rw [hr1]
      simp
    · push_neg at hlt
      have hlen : ((records.drop offset).take chunk).length = chunk := by
        rw [List.length_take]
        exact Nat.min_eq_left hlt
      have hdropdrop : records.drop (offset + chunk) =
          (records.drop offset).drop chunk := by
        rw [List.drop_drop, Nat.add_comm]
      have hsplit : records.drop offset =
          (records.drop offset).take chunk ++ (records.drop offset).drop chunk :=
        (List.take_append_drop _ _).symm
      have hmapsplit : (records.drop offset).map tid =
          ((records.drop offset).take chunk).map tid
            ++ ((records.drop offset).drop chunk).map tid := by
        rw [← List.map_append, ← hsplit]
      have hnddrop : (((records.drop offset).drop chunk).map tid).Nodup :=
        List.Nodup.sublist (List.Sublist.map tid (List.drop_sublist _ _)) hnd
      have hdisj : ∀ t ∈ (records.drop offset).drop chunk,
          tid t ∉ ((records.drop offset).take chunk).map tid := by
        intro t ht
        rw [hmapsplit] at hnd
        have hd := (List.nodup_append.mp hnd).2.2
        intro hmem
        exact hd hmem (List.mem_map_of_mem tid ht)
      have hkeys2 : keysOf (convers ++ ((records.drop offset).take chunk).map
          (fun t => (tid t, mkGroupMeta status t))) =
          keysOf convers ++ ((records.drop offset).take chunk).map tid := by
        unfold keysOf
        rw [List.map_append, List.map_map]
        rfl
      have hfresh2 : ∀ t ∈ records.drop (offset + chunk),
          tid t ∉ keysOf (convers ++ ((records.drop offset).take chunk).map
            (fun t => (tid t, mkGroupMeta status t))) := by
        intro t ht
        rw [hdropdrop] at ht
        rw [hkeys2]
        simp only [List.mem_append]
        push_neg
        exact ⟨hfresh t (List.drop_subset _ _ ht), hdisj t ht⟩
      have hld1 : (records.drop offset).length = records.length - offset :=
        List.length_drop offset records
      have hld2 : ((records.drop offset).drop chunk).length =
          (records.drop offset).length - chunk :=
        List.length_drop chunk (records.drop offset)
      have hlensum : (records.drop offset).length =
          ((records.drop offset).drop chunk).length + chunk := by
        omega
      have hdiveq : (records.drop offset).length / chunk =
          ((records.drop offset).drop chunk).length / chunk + 1 := by
        rw [hlensum, Nat.add_div_right _ hchunk]
      have hmodeq : ((records.drop offset).drop chunk).length % chunk ≠ 0 := by
        intro h0
        apply hrem
        rw [hlensum, Nat.add_mod_right, h0]
      have hrec := ih (offset + chunk)
        (convers ++ ((records.drop offset).take chunk).map
          (fun t => (tid t, mkGroupMeta status t))) ps (reqs ++ [offset])
        (fun t ht => hwf t (List.drop_subset _ _ (hdropdrop ▸ ht)))
        (by rw [hdropdrop]; exact hnddrop)
        hfresh2
        (by rw [hdropdrop]; exact hmodeq)
        (by rw [hdropdrop]; rw [hdiveq] at hfuel; omega)
      simp only [listPartitionLoop, hsrc, hpage]
      rw [hlen, if_neg (lt_irrefl chunk), hrec, hdropdrop]
      congr 1
      · rw [List.append_assoc, ← List.map_append, ← hsplit]
      · rw [hdiveq, List.append_assoc]
        congr 1
        conv_rhs => rw [List.range_succ_eq_map, List.map_cons, List.map_map]
        simp only [Nat.zero_mul, Nat.add_zero, List.singleton_append]
        congr 1
        refine List.map_congr_left ?_
        intro k _
        simp only [Function.comp, Nat.succ_eq_add_one]
        ring

/-- C2: for a well-behaved source with N records in one status
partition — every page full except a final strictly shorter one, i.e.
N mod pageSize is nonzero — the directory crawl requests offsets
0, pageSize, 2·pageSize, …, the short-page count comparison being the
loop's only exit; it issues exactly N / pageSize + 1 requests, which
equals ceil(N / pageSize); and it produces a conversation index with
exactly N entries keyed by the records' unique identifiers in order. -/
theorem directory_pagination (records : List RawThread) (chunk fuel : Nat)
    (status : String)
    (hwf : ∀ t ∈ records, wfGroupThread t)
    (hnd : (records.map tid).Nodup)
    (hchunk : 0 < chunk)
    (hrem : records.length % chunk ≠ 0)
    (hfuel : records.length / chunk + 1 ≤ fuel) :
    ∃ convers,
      listPartitionLoop (sliceSource records chunk) chunk status fuel 0 [] [] [] =
        ListCrawlResult.ok convers []
          ((List.range (records.length / chunk + 1)).map (fun k => k * chunk)) ∧
      records.length / chunk + 1 = (records.length + chunk - 1) / chunk ∧
      convers.length = records.length ∧
      keysOf convers = records.map tid := by
  have h := listLoop_well_behaved records chunk status hchunk fuel 0 [] [] []
    (by simpa using hwf) (by simpa using hnd) (by simp [keysOf])
    (by simpa using hrem) (by simpa using hfuel)
  refine ⟨records.map (fun t => (tid t, mkGroupMeta status t)), ?_, ?_, ?_, ?_⟩
  · simpa using h
  · have hmod := Nat.mod_lt records.length hchunk
    have hdm := Nat.div_add_mod records.length chunk
    have hsplit2 : records.length + chunk - 1 =
        chunk * (records.length / chunk) + chunk + (records.length % chunk - 1) := by
      omega
    have hexp : chunk * (records.length / chunk) + chunk =
        chunk * (records.length / chunk + 1) := by ring
    rw [hexp] at hsplit2
    rw [hsplit2, Nat.mul_add_div hchunk,
        Nat.div_eq_of_lt (by omega : records.length % chunk - 1 < chunk)]
  · simp
  · unfold keysOf
    rw [List.map_map]
    rfl

instance (t : RawThread) : Decidable (wfGroupThread t) := by
  unfold wfGroupThread
  infer_instance

/-- Three complete group thread records with distinct identifiers. -/
def demoRecords : List RawThread :=
  [{ thread_type := some 2, name := some "one", other_user_fbid := none,
     thread_fbid := some "t1", participants := some [], last_message_timestamp := some 1 },
   { thread_type := some 2, name := some "two", other_user_fbid := none,
     thread_fbid := some "t2", participants := some [], last_message_timestamp := some 2 },
   { thread_type := some 2, name := some "three", other_user_fbid := none,
     thread_fbid := some "t3", participants := some [], last_message_timestamp := some 3 }]

theorem directory_pagination_witness :
    ∃ convers,
      listPartitionLoop (sliceSource demoRecords 2) 2 "inbox" 3 0 [] [] [] =
        ListCrawlResult.ok convers [] [0, 2] ∧
      convers.length = 3 ∧
      keysOf convers = ["t1", "t2", "t3"] := by
  obtain ⟨c, h1, hceil, h2, h3⟩ := directory_pagination demoRecords 2 3 "inbox"
    (by decide) (by decide) (by decide) (by decide) (by decide)
  refine ⟨c, ?_, ?_, ?_⟩
  · have : (List.range (demoRecords.length / 2 + 1)).map (fun k => k * 2) =
        [0, 2] := by decide
    rw [this] at h1
    exact h1
  · rw [h2]; rfl
  · rw [h3]; rfl

/-! ## Message history crawl (dumper.py, FBDumper.dump)

One response payload of `thread_info.php` is its `end_of_history`
presence flag and its `actions` array.  The while loop tests the flag of
the previous response (initially `json_data = \x7b"payload": \x7b\x7d\x7d`, so no
flag), prepends the chunk to the accumulated messages, takes the
continuation timestamp from the first record of the chunk — an
`IndexError` on an empty chunk — and advances the offset by
`chunk_size`. -/

/-- One record of the `actions` array. -/
structure MsgRec where
  timestamp : Int
deriving DecidableEq

/-- One response payload of the message-history crawl. -/
structure DumpResponse where
  end_of_history : Bool
  actions : List MsgRec
deriving DecidableEq

/-- Loop state of `FBDumper.dump` for one conversation, plus the number
of requests issued so far. -/
structure DumpState where
  messages : List MsgRec
  timestamp : Int
  offset : Nat
  reqCount : Nat
deriving DecidableEq

/-- The state before the first request: `messages = []`, `offset = 0`,
`timestamp = "0"`. -/
def initDumpState : DumpState :=
  { messages := [], timestamp := 0, offset := 0, reqCount := 0 }

/-- Loop body of `FBDumper.dump`: prepend the chunk, continuation
timestamp from the chunk's first record (`actions[0]`, raising on an
empty chunk), offset advanced by the chunk size. -/
def dumpStep (chunk_size : Nat) (st : DumpState) (resp : DumpResponse) :
    Except String DumpState :=
  match resp.actions with
  | [] => Except.error "IndexError: list index out of range"
  | m :: _ =>
    Except.ok { messages := resp.actions ++ st.messages,
                timestamp := m.timestamp,
                offset := st.offset + chunk_size,
                reqCount := st.reqCount + 1 }

/-- Result of the per-conversation crawl. -/
inductive DumpOutcome
  | finished (messages : List MsgRec)
  | outOfFuel
  | failed (e : String)
deriving DecidableEq

/-- The while loop of `dump` for one conversation, fuel-indexed,
returning the outcome and the number of requests issued.  The `Bool`
argument is whether the previous response carried the end-of-history
sentinel; the loop exits exactly when it is set. -/
def dumpLoop (source : Nat → DumpResponse) (chunk_size : Nat) :
    Nat → DumpState → Bool → DumpOutcome × Nat
  | _, st, true => (DumpOutcome.finished st.messages, st.reqCount)
  | 0, st, false => (DumpOutcome.outOfFuel, st.reqCount)
  | fuel + 1, st, false =>
    match dumpStep chunk_size st (source st.reqCount) with
    | Except.error e => (DumpOutcome.failed e, st.reqCount + 1)
    | Except.ok st2 => dumpLoop source chunk_size fuel st2
        (source st.reqCount).end_of_history

/-- Chunks received for requests `start, …, start + count - 1`, stacked
by prepending each newly received chunk, as the loop accumulator
does. -/
def stackedChunks (source : Nat → DumpResponse) (start : Nat) :
    Nat → List MsgRec
  | 0 => []
  | count + 1 => (source (start + count)).actions ++ stackedChunks source start count

theorem dumpLoop_no_sentinel (source : Nat → DumpResponse) (chunk_size : Nat)
    (h : ∀ n, (source n).end_of_history = false ∧ (source n).actions ≠ []) :
    ∀ (fuel : Nat) (st : DumpState),
      dumpLoop source chunk_size fuel st false =
        (DumpOutcome.outOfFuel, st.reqCount + fuel) := by
  intro fuel
  induction fuel with
  | zero => intro st; simp [dumpLoop]
  | succ fuel ih =>
    intro st
    obtain ⟨hend, hne⟩ := h st.reqCount
    obtain ⟨m, ms, hm⟩ := List.exists_cons_of_ne_nil hne
    rw [dumpLoop]
    simp only [dumpStep, hm, hend]
    rw [ih]
    simp
    omega

theorem stackedChunks_shift (source : Nat → DumpResponse) :
    ∀ (count start : Nat),
      stackedChunks source (start + 1) count ++ (source start).actions =
        stackedChunks source start (count + 1) := by
  intro count
  induction count with
  | zero => intro start; simp [stackedChunks]
  | succ count ih =>
    intro start
    rw [stackedChunks, stackedChunks, List.append_assoc, ih]
    have harith : start + 1 + count = start + (count + 1) := by omega
    rw [harith]

theorem dumpLoop_finishes (source : Nat → DumpResponse) (chunk_size : Nat) :
    ∀ (j fuel : Nat) (st : DumpState),
      (∀ n, st.reqCount ≤ n → n < st.reqCount + j →
        (source n).end_of_history = false) →
      (source (st.reqCount + j)).end_of_history = true →
      (∀ n, st.reqCount ≤ n → n ≤ st.reqCount + j → (source n).actions ≠ []) →
      j + 1 ≤ fuel →
      dumpLoop source chunk_size fuel st false =
        (DumpOutcome.finished
          (stackedChunks source st.reqCount (j + 1) ++ st.messages),
         st.reqCount + (j + 1)) := by
  intro j
  induction j with
  | zero =>
    intro fuel st hbefore hend hne hfuel
    obtain ⟨f, rfl⟩ := Nat.exists_eq_add_of_le hfuel
    obtain ⟨m, ms, hm⟩ := List.exists_cons_of_ne_nil
      (hne st.reqCount (Nat.le_refl _) (by omega))
    rw [Nat.add_comm 1 f, dumpLoop]
    simp only [dumpStep, hm]
    rw [show st.reqCount + 0 = st.reqCount from rfl] at hend
    rw [hend, dumpLoop]
    simp [stackedChunks, hm]
  | succ j ih =>
    intro fuel st hbefore hend hne hfuel
    obtain ⟨f, rfl⟩ := Nat.exists_eq_add_of_le hfuel
    obtain ⟨m, ms, hm⟩ := List.exists_cons_of_ne_nil
      (hne st.reqCount (Nat.le_refl _) (by omega))
    rw [show j + 1 + 1 + f = f + (j + 1) + 1 from by omega]
    rw [dumpLoop]
    simp only [dumpStep, hm]
    rw [hbefore st.reqCount (Nat.le_refl _) (by omega)]
    have hrec := ih (f + (j + 1))
      { messages := (m :: ms) ++ st.messages, timestamp := m.timestamp,
        offset := st.offset + chunk_size, reqCount := st.reqCount + 1 }
      (by intro n h1 h2; dsimp only at h1 h2
          exact hbefore n (by omega) (by omega))
      (by dsimp only
          rw [show st.reqCount + 1 + j = st.reqCount + (j + 1) from by omega]
          exact hend)
      (by intro n h1 h2; dsimp only at h1 h2
          exact hne n (by omega) (by omega))
      (by omega)
    rw [hrec]
    have hmsg : stackedChunks source (st.reqCount + 1) (j + 1)
        ++ ((m :: ms) ++ st.messages) =
        stackedChunks source st.reqCount (j + 1 + 1) ++ st.messages := by
      rw [← List.append_assoc]
      rw [show (m :: ms) = (source st.reqCount).actions from hm.symm]
      rw [stackedChunks_shift]
    simp only
    rw [hmsg]
    have : st.reqCount + 1 + (j + 1) = st.reqCount + (j + 1 + 1) := by omega
    rw [this]

/-- A synthetic reverse-chronologically paged source: request `n`
returns the `n`-th chunk, with the sentinel on the last chunk. -/
def chunkSource (cs : List (List MsgRec)) : Nat → DumpResponse :=
  fun n => { end_of_history := n + 1 == cs.length, actions := cs.getD n [] }

theorem stackedChunks_eq_flatten (cs : List (List MsgRec)) :
    ∀ k, k ≤ cs.length →
      stackedChunks (chunkSource cs) 0 k = ((cs.take k).reverse).flatten := by
  intro k
  induction k with
  | zero => intro _; simp [stackedChunks]
  | succ k ih =>
    intro hk
    have hklt : k < cs.length := hk
    rw [stackedChunks, ih (Nat.le_of_lt hklt)]
    rw [List.take_succ]
    have hget : cs.get? k = some (cs.get ⟨k, hklt⟩) := List.get?_eq_get hklt
    rw [List.get?_eq_getElem?] at hget
    rw [hget]
    simp only [Option.toList_some, List.reverse_append, List.reverse_singleton,
               List.singleton_append, List.flatten_cons]
    have hgd : (chunkSource cs (0 + k)).actions = cs.get ⟨k, hklt⟩ := by
      simp [chunkSource, List.getD_eq_getElem?_getD, List.getElem?_eq_getElem hklt]
    rw [hgd]

/-- Strict reverse-chronological relation between two chunks: every
record of the later-requested chunk `d` is strictly older than every
record of the earlier-requested chunk `c`. -/
def OlderChunk (c d : List MsgRec) : Prop :=
  ∀ x ∈ d, ∀ y ∈ c, x.timestamp < y.timestamp

/-- Strictly-ascending-by-timestamp predicate on a message list. -/
def AscMsgs (l : List MsgRec) : Prop :=
  l.Chain' (fun a b => a.timestamp < b.timestamp)

/-- Strictly-descending-by-timestamp predicate on a message list
(newest-first order within a chunk). -/
def DescMsgs (l : List MsgRec) : Prop :=
  l.Chain' (fun a b => b.timestamp < a.timestamp)

instance (c d : List MsgRec) : Decidable (OlderChunk c d) :=
  inferInstanceAs (Decidable (∀ x ∈ d, ∀ y ∈ c, x.timestamp < y.timestamp))

instance (l : List MsgRec) : Decidable (AscMsgs l) :=
  inferInstanceAs
    (Decidable (List.Chain' (fun (a b : MsgRec) => a.timestamp < b.timestamp) l))

instance (l : List MsgRec) : Decidable (DescMsgs l) :=
  inferInstanceAs
    (Decidable (List.Chain' (fun (a b : MsgRec) => b.timestamp < a.timestamp) l))

theorem olderChunk_of_chain :
    ∀ (rest : List (List MsgRec)) (a : List MsgRec),
      (∀ c ∈ rest, c ≠ []) → List.Chain' OlderChunk (a :: rest) →
      ∀ b ∈ rest, OlderChunk a b := by
  intro rest
  induction rest with
  | nil => intro a _ _ b hb; cases hb
  | cons d rest ih =>
    intro a hne hchain b hb
    have h1 : OlderChunk a d := (List.chain'_cons.mp hchain).1
    rcases List.mem_cons.mp hb with rfl | hb2
    · exact h1
    · have h2 := ih d (fun c hc => hne c (List.mem_cons_of_mem _ hc))
        (List.chain'_cons.mp hchain).2 b hb2
      intro x hx y hy
      obtain ⟨z, hz⟩ := List.exists_mem_of_ne_nil d (hne d (List.mem_cons_self _ _))
      exact lt_trans (h2 x hx z hz) (h1 z hz y hy)

theorem flatten_reverse_asc :
    ∀ (cs : List (List MsgRec)), (∀ c ∈ cs, c ≠ []) → (∀ c ∈ cs, AscMsgs c) →
      List.Chain' OlderChunk cs → AscMsgs ((cs.reverse).flatten) := by
  intro cs
  induction cs with
  | nil => intro _ _ _; simp [AscMsgs]
  | cons a rest ih =>
    intro hne hasc hchain
    have hrest := ih (fun c hc => hne c (List.mem_cons_of_mem _ hc))
      (fun c hc => hasc c (List.mem_cons_of_mem _ hc))
      (List.Chain'.tail hchain)
    rw [List.reverse_cons, List.flatten_append]
    unfold AscMsgs
    rw [List.chain'_append]
    refine ⟨hrest, ?_, ?_⟩
    · have ha := hasc a (List.mem_cons_self _ _)
      unfold AscMsgs at ha
      simpa using ha
    · intro x hx y hy
      have hx2 : x ∈ (rest.reverse).flatten :=
        List.mem_of_getLast?_eq_some (Option.mem_def.mp hx)
      obtain ⟨b, hbmem, hxb⟩ := List.mem_flatten.mp hx2
      have hbrest : b ∈ rest := List.mem_reverse.mp hbmem
      have hy2 : y ∈ a := by
        have hy3 : ([a] : List (List MsgRec)).flatten.head? = some y :=
          Option.mem_def.mp hy
        simp at hy3
        exact List.mem_of_mem_head? (Option.mem_def.mpr hy3)
      exact olderChunk_of_chain rest a
        (fun c hc => hne c (List.mem_cons_of_mem _ hc)) hchain b hbrest x hxb y hy2

/-- The two ascending chunks used by the ordering witness: the second
request returns the strictly older chunk. -/
def ascChunks : List (List MsgRec) := [[⟨3⟩, ⟨4⟩], [⟨1⟩, ⟨2⟩]]

/-- The two descending (newest-first) chunks of the counterexample. -/
def descChunks : List (List MsgRec) := [[⟨4⟩, ⟨3⟩], [⟨2⟩, ⟨1⟩]]

/-- C1 (amended): when every chunk is oldest-first (strictly ascending)
within itself, successive requests return strictly older chunks, and all
chunks are non-empty, the assembled message list — each received chunk
prepended to the accumulator — is strictly ascending by timestamp, the
crawl finishing after exactly one request per chunk; and the
continuation timestamp forwarded to the next request equals the
timestamp of the first record of the chunk just received. -/
theorem message_ordering (cs : List (List MsgRec)) (chunk_size fuel : Nat)
    (hlen : 0 < cs.length)
    (hne : ∀ c ∈ cs, c ≠ [])
    (hasc : ∀ c ∈ cs, AscMsgs c)
    (holder : List.Chain' OlderChunk cs)
    (hfuel : cs.length ≤ fuel) :
    (dumpLoop (chunkSource cs) chunk_size fuel initDumpState false =
      (DumpOutcome.finished ((cs.reverse).flatten), cs.length) ∧
     AscMsgs ((cs.reverse).flatten)) ∧
    (∀ (st : DumpState) (resp : DumpResponse) (m : MsgRec) (ms : List MsgRec)
       (st2 : DumpState), resp.actions = m :: ms →
       dumpStep chunk_size st resp = Except.ok st2 →
       st2.timestamp = m.timestamp) := by
  constructor
  · have h := dumpLoop_finishes (chunkSource cs) chunk_size (cs.length - 1) fuel
      initDumpState
      (by intro n h1 h2
          simp only [initDumpState] at h2
          simp only [chunkSource]
          have : n + 1 ≠ cs.length := by omega
          simpa using this)
      (by simp only [initDumpState, chunkSource, Nat.zero_add]
          have : cs.length - 1 + 1 = cs.length := by omega
          simpa using this)
      (by intro n h1 h2
          simp only [initDumpState] at h2
          simp only [chunkSource]
          have hn : n < cs.length := by omega
          have : cs.getD n [] = cs.get ⟨n, hn⟩ := by
            simp [List.getD_eq_getElem?_getD, List.getElem?_eq_getElem hn]
          rw [this]
          exact hne _ (List.get_mem cs n hn))
      (by omega)
    have hstack := stackedChunks_eq_flatten cs cs.length (Nat.le_refl _)
    rw [List.take_length] at hstack
    rw [show cs.length - 1 + 1 = cs.length from by omega] at h
    simp only [initDumpState, List.append_nil, Nat.zero_add] at h
    constructor
    · rw [show initDumpState =
          ({ messages := [], timestamp := 0, offset := 0, reqCount := 0 } :
            DumpState) from rfl, h, hstack]
    · exact flatten_reverse_asc cs hne hasc holder
  · intro st resp m ms st2 hr hstep
    simp only [dumpStep, hr] at hstep
    cases hstep
    rfl

theorem ascMsgs_pair (a b : MsgRec) (h : a.timestamp < b.timestamp) :
    AscMsgs [a, b] := by
  unfold AscMsgs
  exact List.chain'_cons.mpr ⟨h, List.chain'_singleton _⟩

theorem descMsgs_pair (a b : MsgRec) (h : b.timestamp < a.timestamp) :
    DescMsgs [a, b] := by
  unfold DescMsgs
  exact List.chain'_cons.mpr ⟨h, List.chain'_singleton _⟩

theorem message_ordering_counterexample :
    (∀ c ∈ descChunks, DescMsgs c) ∧
    List.Chain' OlderChunk descChunks ∧
    (∀ c ∈ descChunks, c ≠ []) ∧
    dumpLoop (chunkSource descChunks) 2000 2 initDumpState false =
      (DumpOutcome.finished [⟨2⟩, ⟨1⟩, ⟨4⟩, ⟨3⟩], 2) ∧
    ¬ AscMsgs [⟨2⟩, ⟨1⟩, ⟨4⟩, ⟨3⟩] := by
  refine ⟨?_, ?_, ?_, ?_, ?_⟩
  · intro c hc
    simp only [descChunks, List.mem_cons, List.mem_singleton,
               List.not_mem_nil, or_false] at hc
    rcases hc with rfl | rfl
    · exact descMsgs_pair _ _ (by decide)
    · exact descMsgs_pair _ _ (by decide)
  · unfold descChunks
    exact List.chain'_cons.mpr ⟨by decide, List.chain'_singleton _⟩
  · decide
  · decide
  · intro h
    unfold AscMsgs at h
    exact absurd (List.chain'_cons.mp h).1 (by decide)

theorem message_ordering_witness :
    (dumpLoop (chunkSource ascChunks) 2000 2 initDumpState false =
      (DumpOutcome.finished [⟨1⟩, ⟨2⟩, ⟨3⟩, ⟨4⟩], 2) ∧
     AscMsgs [⟨1⟩, ⟨2⟩, ⟨3⟩, ⟨4⟩]) ∧
    ({ messages := [⟨5⟩], timestamp := 5, offset := 2000, reqCount := 1 } :
      DumpState).timestamp = (5 : Int) := by
  have h := message_ordering ascChunks 2000 2 (by decide) (by decide)
    (by intro c hc
        simp only [ascChunks, List.mem_cons, List.mem_singleton,
                   List.not_mem_nil, or_false] at hc
        rcases hc with rfl | rfl
        · exact ascMsgs_pair _ _ (by decide)
        · exact ascMsgs_pair _ _ (by decide))
    (by unfold ascChunks
        exact List.chain'_cons.mpr ⟨by decide, List.chain'_singleton _⟩)
    (by decide)
  constructor
  · have h1 := h.1
    rw [show (ascChunks.reverse).flatten = [⟨1⟩, ⟨2⟩, ⟨3⟩, ⟨4⟩] from rfl,
        show ascChunks.length = 2 from rfl] at h1
    exact h1
  · exact h.2 initDumpState { end_of_history := false, actions := [⟨5⟩] }
      ⟨5⟩ [] _ rfl rfl

/-- C3 (amended): with every response non-empty, the per-conversation
crawl terminates only on the sentinel: a source never emitting it keeps
being requested — fuel f yields exactly f requests and no normal
termination, for every f — and a source emitting it on request k is
requested exactly k times and then stops. -/
theorem end_of_history_termination (chunk_size : Nat)
    (source : Nat → DumpResponse) :
    ((∀ n, (source n).end_of_history = false ∧ (source n).actions ≠ []) →
      ∀ fuel, dumpLoop source chunk_size fuel initDumpState false =
        (DumpOutcome.outOfFuel, fuel)) ∧
    (∀ k, 0 < k →
      (∀ n, n < k - 1 → (source n).end_of_history = false) →
      (source (k - 1)).end_of_history = true →
      (∀ n, n < k → (source n).actions ≠ []) →
      ∀ fuel, k ≤ fuel →
        ∃ msgs, dumpLoop source chunk_size fuel initDumpState false =
          (DumpOutcome.finished msgs, k)) := by
  constructor
  · intro h fuel
    have hzero := dumpLoop_no_sentinel source chunk_size h fuel initDumpState
    simpa [initDumpState] using hzero
  · intro k hk hbefore hend hnem fuel hfuel
    have h := dumpLoop_finishes source chunk_size (k - 1) fuel initDumpState
      (by intro n h1 h2
          simp only [initDumpState] at h2
          exact hbefore n (by omega))
      (by simp only [initDumpState, Nat.zero_add]
          exact hend)
      (by intro n h1 h2
          simp only [initDumpState] at h2
          exact hnem n (by omega))
      (by omega)
    rw [show initDumpState.reqCount + (k - 1 + 1) = k from by
          simp only [initDumpState]; omega] at h
    exact ⟨_, h⟩

/-- A source whose first response has an empty `actions` array and no
sentinel: the crawl aborts with `IndexError` after one request instead
of continuing, for any remaining fuel. -/
theorem end_of_history_empty_page_counterexample :
    dumpLoop (fun _ => { end_of_history := false, actions := [] }) 2000 5
        initDumpState false =
      (DumpOutcome.failed "IndexError: list index out of range", 1) := by
  rfl

/-- A synthetic source that never emits the sentinel. -/
def neverSentinelSource : Nat → DumpResponse :=
  fun n => { end_of_history := false, actions := [⟨n⟩] }

/-- A synthetic source that emits the sentinel on its second request. -/
def sentinelAt2Source : Nat → DumpResponse :=
  fun n => { end_of_history := n + 1 == 2, actions := [⟨n⟩] }

theorem end_of_history_termination_witness :
    dumpLoop neverSentinelSource 2000 3 initDumpState false =
      (DumpOutcome.outOfFuel, 3) ∧
    ∃ msgs, dumpLoop sentinelAt2Source 2000 7 initDumpState false =
      (DumpOutcome.finished msgs, 2) := by
  constructor
  · exact (end_of_history_termination 2000 neverSentinelSource).1
      (fun n => ⟨rfl, by simp [neverSentinelSource]⟩) 3
  · exact (end_of_history_termination 2000 sentinelAt2Source).2 2 (by omega)
      (by intro n hn; interval_cases n <;> rfl)
      (by rfl)
      (by intro n hn; simp [sentinelAt2Source])
      7 (by omega)

/-! ## Top-level dump over requested conversation ids (FBDumper.dump)

The outer loop of `dump` checks each requested id against the
conversation index and raises `FBUnknownConvers` for an absent id before
building any request for it; for a present id it runs the
per-conversation crawl.  The request log pairs every issued request with
its conversation id. -/

/-- Errors `dump` can raise. -/
inductive FBErr
  | unknownConvers (id : String)
  | responseIndexError
deriving DecidableEq

/-- Result of a whole dump run. -/
inductive DumpRunResult
  | ok
  | err (e : FBErr)
  | outOfFuel
deriving DecidableEq

/-- Translation of the outer loop of `FBDumper.dump`. -/
def dump (convers : List (String × CurrentConvers))
    (source : String → Nat → DumpResponse) (chunk_size fuel : Nat) :
    List String → List (String × Nat) → DumpRunResult × List (String × Nat)
  | [], log => (DumpRunResult.ok, log)
  | c :: rest, log =>
    if dictMem convers c then
      match dumpLoop (source c) chunk_size fuel initDumpState false with
      | (DumpOutcome.finished _, k) =>
        dump convers source chunk_size fuel rest
          (log ++ (List.range k).map (fun i => (c, i)))
      | (DumpOutcome.outOfFuel, k) =>
        (DumpRunResult.outOfFuel, log ++ (List.range k).map (fun i => (c, i)))
      | (DumpOutcome.failed _, k) =>
        (DumpRunResult.err FBErr.responseIndexError,
         log ++ (List.range k).map (fun i => (c, i)))
    else (DumpRunResult.err (FBErr.unknownConvers c), log)

/-- C7: an identifier absent from the conversation index is rejected
with the unknown-conversation error before any message-history request
is issued for it — the run aborts at the first absent id (earlier,
present ids having completed their crawls) and the request log gains no
entry tagged with any absent id; and when every requested id is present
no unknown-conversation error is raised. -/
theorem unknown_conversation_rejected
    (convers : List (String × CurrentConvers))
    (source : String → Nat → DumpResponse) (chunk_size fuel : Nat) :
    (∀ pre c post, dictMem convers c = false →
      (∀ p ∈ pre, dictMem convers p = true) →
      (∀ p ∈ pre, ∃ msgs k,
        dumpLoop (source p) chunk_size fuel initDumpState false =
          (DumpOutcome.finished msgs, k)) →
      ∀ log,
        ∃ ext, dump convers source chunk_size fuel (pre ++ c :: post) log =
          (DumpRunResult.err (FBErr.unknownConvers c), log ++ ext) ∧
          ∀ q ∈ ext, q.1 ∈ pre) ∧
    (∀ ids, (∀ p ∈ ids, dictMem convers p = true) →
      ∀ log x, (dump convers source chunk_size fuel ids log).1 ≠
        DumpRunResult.err (FBErr.unknownConvers x)) := by
  constructor
  · intro pre
    induction pre with
    | nil =>
      intro c post habs _ _ log
      refine ⟨[], ?_, ?_⟩
      · simp [dump, habs]
      · intro q hq; cases hq
    | cons p pre ih =>
      intro c post habs hpre hfin log
      have hp := hpre p (List.mem_cons_self _ _)
      obtain ⟨msgs, k, hk⟩ := hfin p (List.mem_cons_self _ _)
      obtain ⟨ext, hext, hmem⟩ := ih c post habs
        (fun q hq => hpre q (List.mem_cons_of_mem _ hq))
        (fun q hq => hfin q (List.mem_cons_of_mem _ hq))
        (log ++ (List.range k).map (fun i => (p, i)))
      refine ⟨(List.range k).map (fun i => (p, i)) ++ ext, ?_, ?_⟩
      · rw [List.cons_append, dump]
        rw [hp]
        simp only [if_true]
        rw [hk]
        dsimp only
        rw [hext, List.append_assoc]
      · intro q hq
        rcases List.mem_append.mp hq with hq1 | hq2
        · obtain ⟨i, _, rfl⟩ := List.mem_map.mp hq1
          exact List.mem_cons_self _ _
        · exact List.mem_cons_of_mem _ (hmem q hq2)
  · intro ids
    induction ids with
    | nil => intro _ log x; simp [dump]
    | cons p ids ih =>
      intro hall log x
      have hp := hall p (List.mem_cons_self _ _)
      rw [dump, hp]
      simp only [if_true]
      cases hloop : dumpLoop (source p) chunk_size fuel initDumpState false with
      | mk outcome k =>
        cases outcome with
        | finished msgs => exact ih (fun q hq => hall q (List.mem_cons_of_mem _ hq)) _ x
        | outOfFuel => simp
        | failed e => simp

/-- A one-conversation index for the unknown-id witness. -/
def demoConvers : List (String × CurrentConvers) := [("t1", emptyCurrent)]

/-- A message source finishing every conversation in one request. -/
def demoMsgSource : String → Nat → DumpResponse :=
  fun _ _ => { end_of_history := true, actions := [⟨1⟩] }

theorem unknown_conversation_rejected_witness :
    (∃ ext, dump demoConvers demoMsgSource 2000 3 ["t1", "t9"] [] =
      (DumpRunResult.err (FBErr.unknownConvers "t9"), [] ++ ext) ∧
      ∀ q ∈ ext, q.1 ∈ ["t1"]) ∧
    (dump demoConvers demoMsgSource 2000 3 ["t1"] []).1 ≠
      DumpRunResult.err (FBErr.unknownConvers "t9") := by
  have h := unknown_conversation_rejected demoConvers demoMsgSource 2000 3
  refine ⟨?_, ?_⟩
  · exact h.1 ["t1"] "t9" [] (by decide)
      (by intro p hp; simp at hp; subst hp; decide)
      (by intro p hp; simp at hp; subst hp
          exact ⟨[⟨1⟩], 1, by decide⟩) []
  · exact h.2 ["t1"] (by intro p hp; simp at hp; subst hp; decide) [] "t9"
